import Mathlib

/-!
Verification of the Support & Resistance backtest engine
(src/strategies/support_resistance.py and src/strategies/base.py).

The pipeline is embedded shallowly over exact rationals.  Pandas/numpy
float values that can be NaN or infinite are modelled by the four-state
type `Fl`; columns are Lean lists; a cell that pandas fills with NaN
(row 0 of `pct_change`/`shift`) is an `Option ℚ` that is `none`.
Prices, fees and thresholds are modelled as exact rationals, so float
rounding itself is outside the model; every structural fact (which cells
are NaN, lengths, orderings, the arithmetic formulas applied) mirrors
the source line by line.
-/

/-- Model of an IEEE double as seen by this pipeline: NaN, minus/plus
infinity, or a finite value (modelled exactly as a rational). -/
inductive Fl
  | nan
  | ninf
  | pinf
  | val (q : ℚ)
deriving DecidableEq

/-- Finiteness of a modelled float: it is a `val`, not NaN and not infinite. -/
def Fl.isFinite : Fl → Prop
  | .val _ => True
  | _ => False

/-- Division of finite floats with numpy semantics: a zero denominator
gives a signed infinity, and 0/0 gives NaN. -/
def flDiv (num den : ℚ) : Fl :=
  if den ≠ 0 then .val (num / den)
  else if 0 < num then .pinf
  else if num < 0 then .ninf
  else .nan

/-- Minimum of two floats as used by pandas `Series.min()` (skipna=True):
NaN is ignored, -inf dominates. -/
def flMin : Fl → Fl → Fl
  | .nan, b => b
  | a, .nan => a
  | .ninf, _ => .ninf
  | _, .ninf => .ninf
  | .pinf, b => b
  | a, .pinf => a
  | .val x, .val y => .val (min x y)

/-- Minimum of a list of floats, pandas `Series.min()`: NaN entries are
skipped and an empty (or all-NaN) series yields NaN. -/
def flMinimum (l : List Fl) : Fl := l.foldl flMin .nan

/-- Multiplication of a float by the positive literal 100, as in
`drawdown.min() * 100`: it preserves NaN and the two infinities. -/
def flMul100 : Fl → Fl
  | .nan => .nan
  | .ninf => .ninf
  | .pinf => .pinf
  | .val q => .val (q * 100)

/-- Comparison `x > 0` on a float, as in Python `annual_volatility > 0`:
False on NaN and on -inf. -/
def flPos : Fl → Bool
  | .val v => decide (0 < v)
  | .pinf => true
  | _ => false

/-- Full float division (numerator and denominator may themselves be NaN
or infinite), IEEE semantics; used for the Sharpe quotient. -/
def flDivF : Fl → Fl → Fl
  | .nan, _ => .nan
  | _, .nan => .nan
  | .ninf, .ninf => .nan
  | .ninf, .pinf => .nan
  | .pinf, .ninf => .nan
  | .pinf, .pinf => .nan
  | .pinf, .val y => if y < 0 then .ninf else .pinf
  | .ninf, .val y => if y < 0 then .pinf else .ninf
  | .val _, .pinf => .val 0
  | .val _, .ninf => .val 0
  | .val x, .val y => flDiv x y

/-- Floor in ℚ computed on the numerator/denominator pair (denominators
are positive, so flooring is integer floor-division).  Stands for the
implicit flooring inside numpy's float modulo. -/
def ratFloor (q : ℚ) : ℤ := q.num.fdiv q.den

/-- Fractional-part operator: numpy `x % 1` equals `x - floor x` (the
result always lies in `[0,1)`), the `indicator` construction of the
source (line 112). -/
def ratFract (q : ℚ) : ℚ := q - ratFloor q

/-- Helper for `floorLog10` when `1 ≤ q`: count how often `q` can be
divided by 10 before dropping below 10.  The fuel argument only forces
termination; `q.num.natAbs` steps always suffice. -/
def floorLog10Up : ℕ → ℚ → ℕ
  | 0, _ => 0
  | fuel + 1, q => if q < 10 then 0 else floorLog10Up fuel (q / 10) + 1

/-- Helper for `floorLog10` when `0 < q < 1`: count how often `q` must be
multiplied by 10 to reach 1.  The fuel argument only forces termination;
`q.den` steps always suffice. -/
def floorLog10Down : ℕ → ℚ → ℕ
  | 0, _ => 0
  | fuel + 1, q => if 1 ≤ q then 0 else floorLog10Down fuel (q * 10) + 1

/-- Value of `np.floor(np.log10 q)` for positive `q`: the unique `z` with
`10^z ≤ q < 10^(z+1)` (callers guard `0 < q`; the value at nonpositive
arguments is never used because `indicator` returns NaN there). -/
def floorLog10 (q : ℚ) : ℤ :=
  if 1 ≤ q then (floorLog10Up q.num.natAbs q : ℤ) else -(floorLog10Down q.den q : ℤ)

/-- Indicator of a close price, lines 109/112 of the source:
`scaled = Close / 10**floor(log10 Close)` and `indicator = scaled % 1`.
For a nonpositive price, `np.log10` yields NaN (or -inf at 0) and the
whole cell is NaN — modelled as `none`; no error is raised. -/
def indicator (p : ℚ) : Option ℚ :=
  if 0 < p then some (ratFract (p / (10 : ℚ) ^ floorLog10 p)) else none

/-- Signal of one bar, lines 115-117 of the source: the column starts at
0, then rows with `indicator < buy_level` are set to 1, then rows with
`indicator > sell_level` are set to -1 — the sell assignment is applied
second, so it wins when the thresholds overlap.  A NaN indicator
compares False against both thresholds and keeps signal 0. -/
def signalOf (buy sell : ℚ) (p : ℚ) : ℤ :=
  match indicator p with
  | none => 0
  | some ind => if sell < ind then -1 else if ind < buy then 1 else 0

/-- Value of `df['signal'].replace(0, np.nan).replace(-1, 0)` for one
cell (lines 122-125): 0 becomes a gap, -1 becomes position 0, other
signals stand for themselves. -/
def tempPos (s : ℤ) : Option ℚ :=
  if s = 0 then none else if s = -1 then some 0 else some (s : ℚ)

/-- Forward fill (`ffill`) starting from carry `last`; a leading carry of
0 realises the trailing `fillna(0)` of line 128. -/
def ffillFrom (last : ℚ) : List (Option ℚ) → List ℚ
  | [] => []
  | none :: rest => last :: ffillFrom last rest
  | some v :: rest => v :: ffillFrom v rest

/-- Position column, lines 119-128 of the source:
`signal.replace(0, nan).replace(-1, 0).ffill().fillna(0)`. -/
def positionVec (sigs : List ℤ) : List ℚ :=
  ffillFrom 0 (sigs.map tempPos)

/-- Modelled from the spec (§4.2 Position Resolver), for the
refinement claim C4: one step of the sequential stateful fold — Enter
while Flat goes Long, Exit while Long goes Flat, every other pair leaves
the state unchanged (Flat = 0, Long = 1). -/
def positionStep (st : ℚ) (s : ℤ) : ℚ :=
  if st = 0 ∧ s = 1 then 1 else if st = 1 ∧ s = -1 then 0 else st

/-- Modelled from the spec (§4.2): the sequential scan emitting the
state after each signal. -/
def positionFoldFrom (st : ℚ) : List ℤ → List ℚ
  | [] => []
  | s :: rest => positionStep st s :: positionFoldFrom (positionStep st s) rest

/-- Modelled from the spec (§4.2): the whole position sequence of the
stateful fold, initial state Flat. -/
def positionFold (sigs : List ℤ) : List ℚ := positionFoldFrom 0 sigs

/-- Rows 1.. of the strategy-return column (line 140 of the source):
`market_ret * position.shift(1) - fee * position_change` where
`market_ret = Close.pct_change()` and
`position_change = position.diff().abs().fillna(0)`.  The two lists are
walked in lockstep carrying the previous close and previous position. -/
def stratRetGo (fee pc pp : ℚ) : List ℚ → List ℚ → List ℚ
  | c :: cs, p :: ps =>
      ((c / pc - 1) * pp - fee * |p - pp|) :: stratRetGo fee c p cs ps
  | _, _ => []

/-- Full strategy-return column `strat_ret`: row 0 is NaN (both
`pct_change` and `shift(1)` are NaN there, and NaN propagates through
the arithmetic), later rows follow the formula of `stratRetGo`. -/
def stratRet (fee : ℚ) : List ℚ → List ℚ → List (Option ℚ)
  | c :: cs, p :: ps => none :: (stratRetGo fee c p cs ps).map some
  | _, _ => []

/-- Column-wise `fillna(v)`: NaN cells are replaced by `v`. -/
def fillna (v : ℚ) (l : List (Option ℚ)) : List ℚ := l.map fun o => o.getD v

/-- Running product with accumulator, pandas `cumprod()` seeded at `acc`
(pandas itself starts the product at the first element, i.e. `acc = 1`). -/
def cumprodGo (acc : ℚ) : List ℚ → List ℚ
  | [] => []
  | x :: rest => acc * x :: cumprodGo (acc * x) rest

/-- Cumulative-return column, line 143 of the source:
`(1 + strat_ret.fillna(0)).cumprod()`. -/
def cumRet (sr : List (Option ℚ)) : List ℚ :=
  cumprodGo 1 ((fillna 0 sr).map fun r => 1 + r)

/-- Strategy-return column of a whole run: signals from the closes, the
vectorized position column, then `stratRet`. -/
def runSR (buy sell fee : ℚ) (closes : List ℚ) : List (Option ℚ) :=
  stratRet fee closes (positionVec (closes.map (signalOf buy sell)))

/-- Closed trade record (lines 177-183 of the source); dates are
modelled as integers. -/
structure Trade where
  entry_date : ℤ
  exit_date : ℤ
  entry_price : ℚ
  exit_price : ℚ
  pnl : ℚ
deriving DecidableEq

/-- Local state of the trade-extraction loop (lines 154-156):
`position`, `entry_price`, `entry_date`.  The source initialises
`entry_price = 0` and `entry_date = None`; the loop can only emit after
an entry has overwritten both, so the initial values never reach a
trade and `entry_date = None` is modelled as the integer 0. -/
structure TradeState where
  pos : Bool
  entryPrice : ℚ
  entryDate : ℤ
deriving DecidableEq

/-- One iteration of the trade-extraction loop (lines 163-184): a row is
(date, close, signal); entering while flat records price/date, exiting
while long emits one Trade with
`pnl = ((exit / entry - 1) - 2 * fee) * 100`; otherwise nothing
changes. -/
def tradeStep (fee : ℚ) (st : TradeState) (row : ℤ × ℚ × ℤ) : TradeState × List Trade :=
  if st.pos = false ∧ row.2.2 = 1 then
    (⟨true, row.2.1, row.1⟩, [])
  else if st.pos = true ∧ row.2.2 = -1 then
    (⟨false, st.entryPrice, st.entryDate⟩,
      [⟨st.entryDate, row.1, st.entryPrice, row.2.1,
        (row.2.1 / st.entryPrice - 1 - 2 * fee) * 100⟩])
  else (st, [])

/-- Trade list produced by running the loop from state `st` over the
rows, in order. -/
def tradeLoop (fee : ℚ) (st : TradeState) : List (ℤ × ℚ × ℤ) → List Trade
  | [] => []
  | row :: rest =>
      (tradeStep fee st row).2 ++ tradeLoop fee (tradeStep fee st row).1 rest

/-- State of the trade-extraction loop after consuming all rows. -/
def tradeFold (fee : ℚ) (st : TradeState) (rows : List (ℤ × ℚ × ℤ)) : TradeState :=
  rows.foldl (fun s row => (tradeStep fee s row).1) st

/-- Arithmetic mean of a list of rationals (pandas column mean). -/
def listMean (l : List ℚ) : ℚ := l.sum / l.length

/-- Sample variance with one delta degree of freedom, the square of
pandas `Series.std()`: sum of squared deviations over `n - 1`. -/
def sampleVar (l : List ℚ) : ℚ :=
  (l.map fun x => (x - listMean l) ^ 2).sum / ((l.length : ℚ) - 1)

/-- Helper for `runningMax`: running maximum with carry. -/
def runningMaxGo (m : ℚ) : List ℚ → List ℚ
  | [] => []
  | x :: rest => max m x :: runningMaxGo (max m x) rest

/-- Running maximum of a series, pandas `expanding().max()` (line 135 of
base.py). -/
def runningMax : List ℚ → List ℚ
  | [] => []
  | x :: rest => x :: runningMaxGo x rest

/-- Drawdown column, line 136 of base.py:
`(cumulative - running_max) / running_max`, with numpy division
semantics when the running maximum is 0. -/
def drawdownList (cumulative : List ℚ) : List Fl :=
  List.zipWith (fun c m => flDiv (c - m) m) cumulative (runningMax cumulative)

/-- Maximum drawdown, line 137 of base.py: `drawdown.min() * 100`. -/
def maxDrawdownFl (cumulative : List ℚ) : Fl :=
  flMul100 (flMinimum (drawdownList cumulative))

/-- Metrics dictionary returned by `BaseStrategy._calculate_metrics`
(lines 148-156 of base.py).  `total_return` and `win_rate` are plain
rationals because their float computations cannot produce NaN from the
modelled inputs (overflow to infinity of float64 is outside the model);
the field named `sharpe` carries the dict key 'sharpe_ratio'.

The true values of `annual_return`, `annual_volatility` and of the
Sharpe quotient are irrational in general (a real 252/n-th power and a
square root), so their `val` payloads are rational surrogates chosen so
that every aspect the source or the claims inspect is exact:
NaN-versus-finite classification, and the sign tests used by the
`annual_volatility > 0` guard.

* `annual_volatility`: pandas `std()` is NaN when fewer than two
  observations are present (ddof = 1); otherwise the float value is
  `sqrt(variance) * sqrt(252) * 100`.  The payload stored is
  `variance * 252 * 10000`, the exact square of the true value; the
  square root preserves NaN-ness, finiteness, zero and sign.
* `annual_return`: numpy computes `clast ** (252/n)` (then − 1, × 100),
  NaN exactly when the base `clast` is negative and the exponent is not
  integral; the payload stored is the base `clast`.  (Float rounding of
  `1 / years` can make a mathematically integral exponent non-integral;
  no theorem in this file depends on that boundary.)
* `sharpe`: quotient of the two surrogates under the source's
  `annual_volatility > 0` guard, else exactly 0. -/
structure Metrics where
  total_return : ℚ
  annual_return : Fl
  annual_volatility : Fl
  sharpe : Fl
  max_drawdown : Fl
  total_trades : ℕ
  win_rate : ℚ
deriving DecidableEq

/-- Embedding of `BaseStrategy._calculate_metrics` (lines 103-156 of
base.py).  On an empty return series `cumulative.iloc[-1]` raises
IndexError, modelled as `none`.  The trade DataFrame enters only through
its list of pnl values. -/
def calculateMetrics (returns : List (Option ℚ)) (tradePnls : List ℚ) : Option Metrics :=
  let rc := fillna 0 returns
  let cumulative := cumprodGo 1 (rc.map fun r => 1 + r)
  match cumulative.getLast? with
  | none => none
  | some clast =>
    let n : ℕ := rc.length
    let annualReturn : Fl :=
      if clast < 0 ∧ ¬(n ∣ 252) then .nan else .val clast
    let annualVol : Fl :=
      if n < 2 then .nan else .val (sampleVar rc * 252 * 10000)
    let sharpeR : Fl := if flPos annualVol then flDivF annualReturn annualVol else .val 0
    let winCount := (tradePnls.filter fun p => 0 < p).length
    some
      { total_return := (clast - 1) * 100
        annual_return := annualReturn
        annual_volatility := annualVol
        sharpe := sharpeR
        max_drawdown := maxDrawdownFl cumulative
        total_trades := tradePnls.length
        win_rate :=
          if tradePnls.length = 0 then 0
          else (winCount : ℚ) / (tradePnls.length : ℚ) * 100 }

/-- Result bundle of `SupportResistanceStrategy.run` (a
`StrategyResult`): metrics, the `cum_ret` column, the trade list, and
the pnl list `trade_returns`. -/
structure StrategyResult where
  metrics : Metrics
  cumulative_returns : List ℚ
  trades : List Trade
  trade_returns : List ℚ
deriving DecidableEq

/-- Rows handed to the trade-extraction loop: (date, close, signal) per
bar, in order. -/
def runRows (buy sell : ℚ) (bars : List (ℤ × ℚ)) : List (ℤ × ℚ × ℤ) :=
  bars.map fun b => (b.1, b.2, signalOf buy sell b.2)

/-- Embedding of `SupportResistanceStrategy.run` (lines 89-197).  A bar
is (date, close); only the Close column and the index enter the
computation.  The thresholds arrive as `Option ℚ` mirroring
`params.get('sr_buy', 0.4)` / `params.get('sr_sell', 0.6)`: an absent
key is silently replaced by 0.4 resp. 0.6.  The result is `none`
exactly when the metrics computation raises on an empty series. -/
def run (bars : List (ℤ × ℚ)) (srBuy srSell : Option ℚ) (fee : ℚ) : Option StrategyResult :=
  let closes := bars.map Prod.snd
  let buy := srBuy.getD (2 / 5)
  let sell := srSell.getD (3 / 5)
  let sr := runSR buy sell fee closes
  let trades := tradeLoop fee ⟨false, 0, 0⟩ (runRows buy sell bars)
  (calculateMetrics sr (trades.map Trade.pnl)).map fun m =>
    ⟨m, cumRet sr, trades, trades.map Trade.pnl⟩

lemma ffillFrom_length (l : List (Option ℚ)) :
    ∀ last, (ffillFrom last l).length = l.length := by
  induction l with
  | nil => intro last; rfl
  | cons o rest ih => cases o <;> intro last <;> simp [ffillFrom, ih]

lemma positionVec_length (sigs : List ℤ) : (positionVec sigs).length = sigs.length := by
  simp [positionVec, ffillFrom_length]

lemma ffillFrom_take (l : List (Option ℚ)) :
    ∀ last n, ffillFrom last (l.take n) = (ffillFrom last l).take n := by
  induction l with
  | nil => intro last n; simp [ffillFrom]
  | cons o rest ih =>
    intro last n
    cases n with
    | zero => simp [ffillFrom]
    | succ n => cases o <;> simp [ffillFrom, ih]

lemma positionVec_take (sigs : List ℤ) (n : ℕ) :
    positionVec (sigs.take n) = (positionVec sigs).take n := by
  simp only [positionVec]
  rw [List.map_take, ffillFrom_take]

lemma tempPos_neg : tempPos (-1) = some 0 := by norm_num [tempPos]

lemma tempPos_zero : tempPos 0 = none := by norm_num [tempPos]

lemma tempPos_one : tempPos 1 = some 1 := by norm_num [tempPos]

lemma ffillFrom_eq_positionFoldFrom (sigs : List ℤ)
    (h : ∀ s ∈ sigs, s = -1 ∨ s = 0 ∨ s = 1) :
    ∀ last, (last = 0 ∨ last = 1) →
      ffillFrom last (sigs.map tempPos) = positionFoldFrom last sigs := by
  induction sigs with
  | nil => intro last _; rfl
  | cons s rest ih =>
    intro last hlast
    have hs : s = -1 ∨ s = 0 ∨ s = 1 := h s (by simp)
    have hrest : ∀ t ∈ rest, t = -1 ∨ t = 0 ∨ t = 1 := fun t ht => h t (by simp [ht])
    rcases hs with rfl | rfl | rfl
    · have hstep : positionStep last (-1) = 0 := by
        rcases hlast with rfl | rfl <;> norm_num [positionStep]
      simp only [List.map_cons, tempPos_neg, ffillFrom, positionFoldFrom, hstep,
        List.cons.injEq]
      exact ⟨trivial, ih hrest 0 (Or.inl rfl)⟩
    · have hstep : positionStep last 0 = last := by
        rcases hlast with rfl | rfl <;> norm_num [positionStep]
      simp only [List.map_cons, tempPos_zero, ffillFrom, positionFoldFrom, hstep,
        List.cons.injEq]
      exact ⟨trivial, ih hrest last hlast⟩
    · have hstep : positionStep last 1 = 1 := by
        rcases hlast with rfl | rfl <;> norm_num [positionStep]
      simp only [List.map_cons, tempPos_one, ffillFrom, positionFoldFrom, hstep,
        List.cons.injEq]
      exact ⟨rfl, ih hrest 1 (Or.inr rfl)⟩

/-- C4: for every signal sequence over the signal alphabet
{Exit = -1, None = 0, Enter = 1}, the vectorized position construction
(replace 0 by a gap, map -1 to 0, forward-fill, default 0) equals the
spec's sequential stateful fold, and the position at bar `i` depends
only on the signals at bars `≤ i` (truncating the signals truncates the
positions). -/
theorem c4_position_vectorized_eq_fold (sigs : List ℤ)
    (h : ∀ s ∈ sigs, s = -1 ∨ s = 0 ∨ s = 1) :
    positionVec sigs = positionFold sigs ∧
      ∀ n, positionVec (sigs.take n) = (positionVec sigs).take n :=
  ⟨ffillFrom_eq_positionFoldFrom sigs h 0 (Or.inl rfl), positionVec_take sigs⟩

/-- Witness for C4 on the concrete signal list [1, 0, -1, -1, 1]. -/
theorem c4_witness :
    (∀ s ∈ ([1, 0, -1, -1, 1] : List ℤ), s = -1 ∨ s = 0 ∨ s = 1) ∧
      positionVec [1, 0, -1, -1, 1] = positionFold [1, 0, -1, -1, 1] ∧
      positionVec (([1, 0, -1, -1, 1] : List ℤ).take 2) =
        (positionVec [1, 0, -1, -1, 1]).take 2 :=
  ⟨by decide,
   (c4_position_vectorized_eq_fold [1, 0, -1, -1, 1] (by decide)).1,
   (c4_position_vectorized_eq_fold [1, 0, -1, -1, 1] (by decide)).2 2⟩

lemma getD_cons_ite (x : ℚ) (l : List ℚ) (i : ℕ) :
    (x :: l).getD i 0 = if i = 0 then x else l.getD (i - 1) 0 := by
  cases i <;> simp

lemma stratRetGo_length (cs : List ℚ) :
    ∀ (ps : List ℚ) (fee pc pp : ℚ),
      (stratRetGo fee pc pp cs ps).length = min cs.length ps.length := by
  induction cs with
  | nil => intro ps fee pc pp; cases ps <;> simp [stratRetGo]
  | cons c cs ih =>
    intro ps fee pc pp
    cases ps with
    | nil => simp [stratRetGo]
    | cons p ps => simp [stratRetGo, ih, Nat.succ_min_succ]

lemma stratRetGo_getD (cs : List ℚ) :
    ∀ (ps : List ℚ) (fee pc pp : ℚ) (i : ℕ), i < cs.length → i < ps.length →
      (stratRetGo fee pc pp cs ps).getD i 0 =
        (cs.getD i 0 / (if i = 0 then pc else cs.getD (i - 1) 0) - 1) *
            (if i = 0 then pp else ps.getD (i - 1) 0) -
          fee * |ps.getD i 0 - (if i = 0 then pp else ps.getD (i - 1) 0)| := by
  induction cs with
  | nil => intro ps fee pc pp i hi; simp at hi
  | cons c cs ih =>
    intro ps fee pc pp i hic hip
    cases ps with
    | nil => simp at hip
    | cons p ps =>
      cases i with
      | zero => simp [stratRetGo]
      | succ j =>
        have hjc : j < cs.length := by simpa using hic
        have hjp : j < ps.length := by simpa using hip
        simp only [stratRetGo, List.getD_cons_succ]
        rw [ih ps fee c p j hjc hjp]
        cases j with
        | zero => simp
        | succ k => simp

lemma stratRet_getD (closes pos : List ℚ) (fee : ℚ) (i : ℕ)
    (hlen : pos.length = closes.length) (hi : i + 1 < closes.length) :
    (stratRet fee closes pos).getD (i + 1) none =
      some ((closes.getD (i + 1) 0 / closes.getD i 0 - 1) * pos.getD i 0 -
        fee * |pos.getD (i + 1) 0 - pos.getD i 0|) := by
  cases closes with
  | nil => simp at hi
  | cons c cs =>
    cases pos with
    | nil => simp at hlen
    | cons p ps =>
      have hlen' : ps.length = cs.length := by simpa using hlen
      have hic : i < cs.length := by simpa using hi
      have hip : i < ps.length := hlen' ▸ hic
      have hgo : i < (stratRetGo fee c p cs ps).length := by
        rw [stratRetGo_length]; omega
      have hmap : (stratRet fee (c :: cs) (p :: ps)).getD (i + 1) none =
          some ((stratRetGo fee c p cs ps).getD i 0) := by
        simp only [stratRet, List.getD_cons_succ]
        rw [List.getD_eq_getElem?_getD, List.getElem?_map, List.getElem?_eq_getElem hgo,
          Option.map_some', Option.getD_some, List.getD_eq_getElem _ 0 hgo]
      rw [hmap, stratRetGo_getD cs ps fee c p i hic hip]
      rw [getD_cons_ite c cs (i + 1), getD_cons_ite c cs i,
        getD_cons_ite p ps (i + 1), getD_cons_ite p ps i]
      cases i with
      | zero => simp
      | succ j => simp

lemma stratRetGo_take (cs : List ℚ) :
    ∀ (ps : List ℚ) (fee pc pp : ℚ) (n : ℕ),
      stratRetGo fee pc pp (cs.take n) (ps.take n) =
        (stratRetGo fee pc pp cs ps).take n := by
  induction cs with
  | nil => intro ps fee pc pp n; cases ps <;> simp [stratRetGo]
  | cons c cs ih =>
    intro ps fee pc pp n
    cases ps with
    | nil => cases n <;> simp [stratRetGo]
    | cons p ps =>
      cases n with
      | zero => simp [stratRetGo]
      | succ n => simp [stratRetGo, ih]

lemma stratRet_take (closes pos : List ℚ) (fee : ℚ) (n : ℕ) :
    stratRet fee (closes.take n) (pos.take n) = (stratRet fee closes pos).take n := by
  cases closes with
  | nil => simp [stratRet]
  | cons c cs =>
    cases pos with
    | nil => cases n <;> simp [stratRet]
    | cons p ps =>
      cases n with
      | zero => simp [stratRet]
      | succ n => simp [stratRet, stratRetGo_take, List.map_take]

lemma runSR_take (buy sell fee : ℚ) (closes : List ℚ) (n : ℕ) :
    runSR buy sell fee (closes.take n) = (runSR buy sell fee closes).take n := by
  unfold runSR
  rw [List.map_take, positionVec_take, stratRet_take]

/-- C1: the per-bar strategy return.  First part (the formula, for every
price series, every same-length position sequence, every fee): row i+1
of the strat_ret column is
`(close[i+1]/close[i] - 1) * position[i] - fee * |position[i+1] - position[i]|`,
i.e. market return times the position held on the previous bar minus fee
times the position-change magnitude.  Second part (no lookahead, for the
composed pipeline): the strategy return at bar i is a function of the
closes at bars ≤ i only — two price series agreeing up to bar i have
identical strategy returns at bar i, so mutating any price at index
j > i cannot change it. -/
theorem c1_strategy_return_formula_no_lookahead :
    (∀ (closes pos : List ℚ) (fee : ℚ) (i : ℕ),
      pos.length = closes.length → i + 1 < closes.length →
        (stratRet fee closes pos).getD (i + 1) none =
          some ((closes.getD (i + 1) 0 / closes.getD i 0 - 1) * pos.getD i 0 -
            fee * |pos.getD (i + 1) 0 - pos.getD i 0|)) ∧
    (∀ (buy sell fee : ℚ) (closes closes' : List ℚ) (i : ℕ),
      closes.take (i + 1) = closes'.take (i + 1) →
        (runSR buy sell fee closes)[i]? = (runSR buy sell fee closes')[i]?) := by
  refine ⟨stratRet_getD, fun buy sell fee closes closes' i h => ?_⟩
  have hl : ((runSR buy sell fee closes).take (i + 1))[i]? =
      ((runSR buy sell fee closes').take (i + 1))[i]? := by
    rw [← runSR_take, ← runSR_take, h]
  rw [List.getElem?_take, List.getElem?_take] at hl
  simpa using hl

/-- Witness for C1: the formula at bar 1 of closes [4, 5] with positions
[0, 1] and fee 1/100, and the no-lookahead part on two series agreeing
at bar 0 only. -/
theorem c1_witness :
    (stratRet (1 / 100) [4, 5] [0, 1]).getD 1 none =
        some (((5 : ℚ) / 4 - 1) * 0 - 1 / 100 * |(1 : ℚ) - 0|) ∧
      (runSR (2 / 5) (3 / 5) 0 [4, 5])[0]? = (runSR (2 / 5) (3 / 5) 0 [4, 7])[0]? := by
  constructor
  · have h := c1_strategy_return_formula_no_lookahead.1 [4, 5] [0, 1] (1 / 100) 0
      (by simp) (by simp)
    simpa using h
  · exact c1_strategy_return_formula_no_lookahead.2 (2 / 5) (3 / 5) 0 [4, 5] [4, 7] 0 rfl

lemma cumprodGo_length (l : List ℚ) : ∀ a : ℚ, (cumprodGo a l).length = l.length := by
  induction l with
  | nil => intro a; rfl
  | cons x r ih => intro a; simp [cumprodGo, ih]

lemma stratRet_length (closes pos : List ℚ) (fee : ℚ) (h : pos.length = closes.length) :
    (stratRet fee closes pos).length = closes.length := by
  cases closes with
  | nil => cases pos <;> simp [stratRet]
  | cons c cs =>
    cases pos with
    | nil => simp at h
    | cons p ps =>
      have h' : ps.length = cs.length := by simpa using h
      simp [stratRet, stratRetGo_length, h']

lemma cumprodGo_getD_zero (l : List ℚ) (a : ℚ) (h : l ≠ []) :
    (cumprodGo a l).getD 0 0 = a * l.getD 0 0 := by
  cases l with
  | nil => exact absurd rfl h
  | cons x r => simp [cumprodGo]

lemma cumprodGo_getD_succ (l : List ℚ) :
    ∀ (a : ℚ) (i : ℕ), i + 1 < l.length →
      (cumprodGo a l).getD (i + 1) 0 = (cumprodGo a l).getD i 0 * l.getD (i + 1) 0 := by
  induction l with
  | nil => intro a i h; simp at h
  | cons x r ih =>
    intro a i h
    cases i with
    | zero =>
      cases r with
      | nil => simp at h
      | cons y r' => simp [cumprodGo]
    | succ j =>
      have hj : j + 1 < r.length := by simpa using h
      simp only [cumprodGo, List.getD_cons_succ]
      exact ih (a * x) j hj

lemma getD_map_one_add (l : List ℚ) (i : ℕ) (h : i < l.length) :
    (l.map fun r => 1 + r).getD i 0 = 1 + l.getD i 0 := by
  rw [List.getD_eq_getElem?_getD, List.getElem?_map, List.getElem?_eq_getElem h,
    Option.map_some', Option.getD_some, List.getD_eq_getElem _ 0 h]

lemma run_nil (srBuy srSell : Option ℚ) (fee : ℚ) : run [] srBuy srSell fee = none := rfl

lemma runSR_length (buy sell fee : ℚ) (closes : List ℚ) :
    (runSR buy sell fee closes).length = closes.length := by
  unfold runSR
  rw [stratRet_length]
  rw [positionVec_length, List.length_map]

lemma run_eq_some (bars : List (ℤ × ℚ)) (srBuy srSell : Option ℚ) (fee : ℚ)
    (r : StrategyResult) (h : run bars srBuy srSell fee = some r) :
    r = ⟨r.metrics,
      cumRet (runSR (srBuy.getD (2 / 5)) (srSell.getD (3 / 5)) fee (bars.map Prod.snd)),
      tradeLoop fee ⟨false, 0, 0⟩ (runRows (srBuy.getD (2 / 5)) (srSell.getD (3 / 5)) bars),
      (tradeLoop fee ⟨false, 0, 0⟩
        (runRows (srBuy.getD (2 / 5)) (srSell.getD (3 / 5)) bars)).map Trade.pnl⟩ := by
  unfold run at h
  rcases Option.map_eq_some'.mp h with ⟨m, _, hr⟩
  rw [← hr]

lemma runSR_cons (buy sell fee c : ℚ) (cs : List ℚ) :
    ∃ t, runSR buy sell fee (c :: cs) = none :: t := by
  unfold runSR
  cases hpv : positionVec ((c :: cs).map (signalOf buy sell)) with
  | nil =>
    have hl := positionVec_length ((c :: cs).map (signalOf buy sell))
    rw [hpv] at hl
    simp at hl
  | cons p ps =>
    exact ⟨_, rfl⟩

/-- C2: for every input on which `run` returns a result, the cumulative
return series has the same length as the input series, its first element
is 1 (zero net return at bar 0: row 0 of strat_ret is NaN and is filled
with 0), and each later element is the previous one times
`1 + strategyReturn[i]` (the NaN-filled strat_ret column). -/
theorem c2_cumulative_equity_consistency (bars : List (ℤ × ℚ)) (srBuy srSell : Option ℚ)
    (fee : ℚ) (r : StrategyResult)
    (h : run bars srBuy srSell fee = some r) :
    r.cumulative_returns.length = bars.length ∧
      r.cumulative_returns.getD 0 0 = 1 ∧
      ∀ i, i + 1 < bars.length →
        r.cumulative_returns.getD (i + 1) 0 =
          r.cumulative_returns.getD i 0 *
            (1 + (fillna 0 (runSR (srBuy.getD (2 / 5)) (srSell.getD (3 / 5)) fee
              (bars.map Prod.snd))).getD (i + 1) 0) := by
  have hbars : bars ≠ [] := by
    intro hnil
    rw [hnil, run_nil] at h
    exact Option.noConfusion h
  have hr := run_eq_some bars srBuy srSell fee r h
  set buy := srBuy.getD (2 / 5) with hbuy
  set sell := srSell.getD (3 / 5) with hsell
  set closes := bars.map Prod.snd with hcloses
  set sr := runSR buy sell fee closes with hsr
  have hcum : r.cumulative_returns = cumRet sr := by rw [hr]
  have hsrlen : sr.length = bars.length := by
    rw [hsr, runSR_length, hcloses, List.length_map]
  have hxslen : ((fillna 0 sr).map fun t => 1 + t).length = bars.length := by
    simp [fillna, hsrlen]
  refine ⟨?_, ?_, ?_⟩
  · rw [hcum]
    unfold cumRet
    rw [cumprodGo_length]
    exact hxslen
  · have hcne : closes ≠ [] := by
      rw [hcloses]
      simpa using hbars
    obtain ⟨c, cs, hc⟩ := List.exists_cons_of_ne_nil hcne
    obtain ⟨t, ht⟩ := runSR_cons buy sell fee c cs
    rw [hcum, hsr, hc, ht]
    simp [cumRet, fillna, cumprodGo]
  · intro i hi
    have hb1 : i + 1 < ((fillna 0 sr).map fun t => 1 + t).length := by
      rw [hxslen]; exact hi
    have hb2 : i + 1 < (fillna 0 sr).length := by
      simpa [fillna, hsrlen] using hi
    rw [hcum]
    unfold cumRet
    rw [cumprodGo_getD_succ _ 1 i hb1, getD_map_one_add _ _ hb2]

/-- Witness for C2 on the two-bar series [(0,4), (1,5)] with absent
parameters and zero fee. -/
theorem c2_witness :
    run [((0 : ℤ), (4 : ℚ)), (1, 5)] none none 0 =
        some ⟨⟨25, .val (5 / 4), .val 78750, .val (1 / 63000), .val 0, 0, 0⟩,
          [1, 5 / 4], [], []⟩ ∧
      ([1, 5 / 4] : List ℚ).length = 2 ∧
      ([1, 5 / 4] : List ℚ).getD 0 0 = 1 ∧
      ([1, 5 / 4] : List ℚ).getD 1 0 =
        ([1, 5 / 4] : List ℚ).getD 0 0 *
          (1 + (fillna 0 (runSR (2 / 5) (3 / 5) 0 [4, 5])).getD 1 0) := by
  have hrun : run [((0 : ℤ), (4 : ℚ)), (1, 5)] none none 0 =
      some ⟨⟨25, .val (5 / 4), .val 78750, .val (1 / 63000), .val 0, 0, 0⟩,
        [1, 5 / 4], [], []⟩ := by
    norm_num [run, runRows, runSR, stratRet, stratRetGo, positionVec, ffillFrom, tempPos,
      signalOf, indicator, ratFract, ratFloor, floorLog10, floorLog10Up, cumRet, fillna,
      cumprodGo, tradeLoop, tradeStep, calculateMetrics, sampleVar, listMean,
      runningMax, runningMaxGo, drawdownList, maxDrawdownFl, flMinimum, flMin, flMul100,
      flDiv, flDivF, flPos]
  have h := c2_cumulative_equity_consistency [((0 : ℤ), (4 : ℚ)), (1, 5)] none none 0 _ hrun
  exact ⟨hrun, by simp, by simp, by simpa using h.2.2 0 (by norm_num)⟩

lemma tradeLoop_pnl (fee : ℚ) (rows : List (ℤ × ℚ × ℤ)) :
    ∀ (st : TradeState) (t : Trade), t ∈ tradeLoop fee st rows →
      t.pnl = (t.exit_price / t.entry_price - 1 - 2 * fee) * 100 := by
  induction rows with
  | nil => intro st t ht; simp [tradeLoop] at ht
  | cons row rest ih =>
    intro st t ht
    simp only [tradeLoop, List.mem_append] at ht
    rcases ht with hstep | hrest
    · unfold tradeStep at hstep
      split_ifs at hstep with h1 h2
      · simp at hstep
      · simp only [List.mem_singleton] at hstep
        rw [hstep]
      · simp at hstep
    · exact ih _ t hrest

/-- C3: every trade emitted by the extraction loop (from any starting
state, over any rows) records
`pnl = (exit_price / entry_price - 1 - 2 * fee) * 100`: the round trip
is charged the entry fee and the exit fee exactly once each. -/
theorem c3_trade_pnl_round_trip (fee : ℚ) (st : TradeState) (rows : List (ℤ × ℚ × ℤ))
    (t : Trade) (ht : t ∈ tradeLoop fee st rows) :
    t.pnl = (t.exit_price / t.entry_price - 1 - 2 * fee) * 100 :=
  tradeLoop_pnl fee rows st t ht

/-- Witness for C3: entering at close 4 and exiting at close 5 with zero
fee yields one trade with pnl 25. -/
theorem c3_witness :
    (⟨0, 1, 4, 5, 25⟩ : Trade) ∈ tradeLoop 0 ⟨false, 0, 0⟩ [(0, 4, 1), (1, 5, -1)] ∧
      (25 : ℚ) = ((5 : ℚ) / 4 - 1 - 2 * 0) * 100 := by
  have hmem : (⟨0, 1, 4, 5, 25⟩ : Trade) ∈ tradeLoop 0 ⟨false, 0, 0⟩
      [(0, 4, 1), (1, 5, -1)] := by
    norm_num [tradeLoop, tradeStep]
  have h := c3_trade_pnl_round_trip 0 ⟨false, 0, 0⟩ [(0, 4, 1), (1, 5, -1)]
    ⟨0, 1, 4, 5, 25⟩ hmem
  exact ⟨hmem, by simpa using h⟩

lemma tradeLoop_append (fee : ℚ) (rows1 : List (ℤ × ℚ × ℤ)) :
    ∀ (st : TradeState) (rows2 : List (ℤ × ℚ × ℤ)),
      tradeLoop fee st (rows1 ++ rows2) =
        tradeLoop fee st rows1 ++ tradeLoop fee (tradeFold fee st rows1) rows2 := by
  induction rows1 with
  | nil => intro st rows2; simp [tradeLoop, tradeFold]
  | cons row rest ih =>
    intro st rows2
    simp [tradeLoop, tradeFold, ih, List.append_assoc]

lemma tradeStep_enter_emits_nothing (fee : ℚ) (st : TradeState) (d : ℤ) (c : ℚ) :
    (tradeStep fee st (d, c, 1)).2 = [] := by
  unfold tradeStep
  split_ifs with h1 h2
  · rfl
  · exact absurd h2.2 (by decide)
  · rfl

/-- C5: the trade extractor emits only round-trip trades.  If a series
ends with a bar that opens a position (Enter signal on the last bar,
loop state Flat just before it), the trade list of the run is exactly the
trade list of the run on the series truncated by that last bar: the
opened-but-never-closed position contributes no Trade record. -/
theorem c5_open_position_excluded (srBuy srSell : Option ℚ) (fee : ℚ)
    (bars : List (ℤ × ℚ)) (b : ℤ × ℚ) (r r' : StrategyResult)
    (h1 : run (bars ++ [b]) srBuy srSell fee = some r)
    (h2 : run bars srBuy srSell fee = some r')
    (_hflat : (tradeFold fee ⟨false, 0, 0⟩
        (runRows (srBuy.getD (2 / 5)) (srSell.getD (3 / 5)) bars)).pos = false)
    (hsig : signalOf (srBuy.getD (2 / 5)) (srSell.getD (3 / 5)) b.2 = 1) :
    r.trades = r'.trades := by
  have hr := run_eq_some _ _ _ _ _ h1
  have hr' := run_eq_some _ _ _ _ _ h2
  rw [hr, hr']
  show tradeLoop fee ⟨false, 0, 0⟩ (runRows _ _ (bars ++ [b])) =
    tradeLoop fee ⟨false, 0, 0⟩ (runRows _ _ bars)
  have hrows : runRows (srBuy.getD (2 / 5)) (srSell.getD (3 / 5)) (bars ++ [b]) =
      runRows (srBuy.getD (2 / 5)) (srSell.getD (3 / 5)) bars ++
        [(b.1, b.2, signalOf (srBuy.getD (2 / 5)) (srSell.getD (3 / 5)) b.2)] := by
    simp [runRows]
  rw [hrows, tradeLoop_append, hsig]
  have hlast : tradeLoop fee
      (tradeFold fee ⟨false, 0, 0⟩ (runRows (srBuy.getD (2 / 5)) (srSell.getD (3 / 5)) bars))
      [(b.1, b.2, 1)] = [] := by
    simp [tradeLoop, tradeStep_enter_emits_nothing]
  rw [hlast, List.append_nil]

lemma fdiv_three_two : Int.fdiv 3 2 = 1 := by decide

/-- Witness for C5: one bar with a None signal (close 3/2, indicator
1/2) followed by a bar whose close 5 gives an Enter signal; both runs
produce an empty trade list. -/
theorem c5_witness :
    run [((0 : ℤ), (3 / 2 : ℚ)), (1, 5)] none none 0 =
        some ⟨⟨0, .val 1, .val 0, .val 0, .val 0, 0, 0⟩, [1, 1], [], []⟩ ∧
      run [((0 : ℤ), (3 / 2 : ℚ))] none none 0 =
        some ⟨⟨0, .val 1, .nan, .val 0, .val 0, 0, 0⟩, [1], [], []⟩ ∧
      ([] : List Trade) = [] := by
  have h1 : run [((0 : ℤ), (3 / 2 : ℚ)), (1, 5)] none none 0 =
      some ⟨⟨0, .val 1, .val 0, .val 0, .val 0, 0, 0⟩, [1, 1], [], []⟩ := by
    norm_num [run, runRows, runSR, stratRet, stratRetGo, positionVec, ffillFrom, tempPos,
      signalOf, indicator, ratFract, ratFloor, floorLog10, floorLog10Up, cumRet, fillna,
      cumprodGo, tradeLoop, tradeStep, calculateMetrics, sampleVar, listMean,
      runningMax, runningMaxGo, drawdownList, maxDrawdownFl, flMinimum, flMin, flMul100,
      flDiv, flDivF, flPos, fdiv_three_two]
  have h2 : run [((0 : ℤ), (3 / 2 : ℚ))] none none 0 =
      some ⟨⟨0, .val 1, .nan, .val 0, .val 0, 0, 0⟩, [1], [], []⟩ := by
    norm_num [run, runRows, runSR, stratRet, stratRetGo, positionVec, ffillFrom, tempPos,
      signalOf, indicator, ratFract, ratFloor, floorLog10, floorLog10Up, cumRet, fillna,
      cumprodGo, tradeLoop, tradeStep, calculateMetrics, sampleVar, listMean,
      runningMax, runningMaxGo, drawdownList, maxDrawdownFl, flMinimum, flMin, flMul100,
      flDiv, flDivF, flPos, fdiv_three_two]
  refine ⟨h1, h2, ?_⟩
  have hflat : (tradeFold 0 ⟨false, 0, 0⟩
      (runRows ((none : Option ℚ).getD (2 / 5)) ((none : Option ℚ).getD (3 / 5))
        [((0 : ℤ), (3 / 2 : ℚ))])).pos = false := by
    norm_num [tradeFold, tradeStep, runRows, signalOf, indicator, ratFract, ratFloor,
      floorLog10, floorLog10Up, fdiv_three_two]
  have hsig : signalOf ((none : Option ℚ).getD (2 / 5)) ((none : Option ℚ).getD (3 / 5))
      ((((1 : ℤ), (5 : ℚ)) : ℤ × ℚ).2) = 1 := by
    norm_num [signalOf, indicator, ratFract, ratFloor, floorLog10, floorLog10Up]
  exact c5_open_position_excluded none none 0 [((0 : ℤ), (3 / 2 : ℚ))] (1, 5) _ _ h1 h2
    hflat hsig

lemma fillna_length (v : ℚ) (l : List (Option ℚ)) : (fillna v l).length = l.length := by
  simp [fillna]

lemma cumprodGo_pos (l : List ℚ) :
    ∀ a : ℚ, 0 < a → (∀ x ∈ l, 0 < x) → ∀ y ∈ cumprodGo a l, 0 < y := by
  induction l with
  | nil => intro a _ _ y hy; simp [cumprodGo] at hy
  | cons x r ih =>
    intro a ha hx y hy
    have hx0 : 0 < x := hx x (by simp)
    have hax : 0 < a * x := mul_pos ha hx0
    simp only [cumprodGo, List.mem_cons] at hy
    rcases hy with rfl | hy
    · exact hax
    · exact ih (a * x) hax (fun z hz => hx z (by simp [hz])) y hy

lemma drawdown_vals (rest : List ℚ) :
    ∀ m : ℚ, 0 < m → (∀ y ∈ rest, 0 < y) →
      ∀ fl ∈ List.zipWith (fun c mm => flDiv (c - mm) mm) rest (runningMaxGo m rest),
        ∃ d, fl = Fl.val d ∧ -1 < d ∧ d ≤ 0 := by
  induction rest with
  | nil => intro m _ _ fl hfl; simp at hfl
  | cons y r ih =>
    intro m hm hpos fl hfl
    have hy : 0 < y := hpos y (by simp)
    have hmax : 0 < max m y := lt_max_of_lt_right hy
    simp only [runningMaxGo, List.zipWith_cons_cons, List.mem_cons] at hfl
    rcases hfl with rfl | hfl
    · refine ⟨(y - max m y) / max m y, by simp [flDiv, ne_of_gt hmax], ?_, ?_⟩
      · have hpos' : 0 < y / max m y := div_pos hy hmax
        have : (y - max m y) / max m y = y / max m y - 1 := by
          rw [sub_div, div_self (ne_of_gt hmax)]
        rw [this]
        linarith
      · have hle : y / max m y ≤ 1 := (div_le_one hmax).mpr (le_max_right m y)
        have heq : (y - max m y) / max m y = y / max m y - 1 := by
          rw [sub_div, div_self (ne_of_gt hmax)]
        rw [heq]
        linarith
    · exact ih (max m y) hmax (fun z hz => hpos z (by simp [hz])) fl hfl

lemma drawdownList_vals (cumulative : List ℚ) (hpos : ∀ y ∈ cumulative, 0 < y) :
    ∀ fl ∈ drawdownList cumulative, ∃ d, fl = Fl.val d ∧ -1 < d ∧ d ≤ 0 := by
  cases cumulative with
  | nil => intro fl hfl; simp [drawdownList] at hfl
  | cons x r =>
    intro fl hfl
    have hx : 0 < x := hpos x (by simp)
    simp only [drawdownList, runningMax, List.zipWith_cons_cons, List.mem_cons] at hfl
    rcases hfl with rfl | hfl
    · exact ⟨0, by simp [flDiv, ne_of_gt hx], by norm_num, le_refl 0⟩
    · exact drawdown_vals r x hx (fun z hz => hpos z (by simp [hz])) fl hfl

lemma foldl_flMin_vals (a b : ℚ) (l : List Fl) :
    ∀ d0 : ℚ, a ≤ d0 → d0 ≤ b →
      (∀ fl ∈ l, ∃ d, fl = Fl.val d ∧ a ≤ d ∧ d ≤ b) →
      ∃ d, l.foldl flMin (Fl.val d0) = Fl.val d ∧ a ≤ d ∧ d ≤ b := by
  induction l with
  | nil => intro d0 ha hb _; exact ⟨d0, rfl, ha, hb⟩
  | cons x r ih =>
    intro d0 ha hb hl
    obtain ⟨dx, hdx, hax, hbx⟩ := hl x (by simp)
    subst hdx
    have hstep : flMin (Fl.val d0) (Fl.val dx) = Fl.val (min d0 dx) := rfl
    simp only [List.foldl_cons, hstep]
    exact ih (min d0 dx) (le_min ha hax) (min_le_of_left_le hb)
      (fun fl hfl => hl fl (by simp [hfl]))

lemma maxDrawdownFl_bounds (cumulative : List ℚ) (hne : cumulative ≠ [])
    (hpos : ∀ y ∈ cumulative, 0 < y) :
    ∃ d, maxDrawdownFl cumulative = Fl.val d ∧ -100 ≤ d ∧ d ≤ 0 := by
  obtain ⟨x, r, rfl⟩ := List.exists_cons_of_ne_nil hne
  have hx : 0 < x := hpos x (by simp)
  have hvals := drawdownList_vals (x :: r) hpos
  have hdl : drawdownList (x :: r) =
      flDiv (x - x) x :: List.zipWith (fun c mm => flDiv (c - mm) mm) r (runningMaxGo x r) := by
    simp [drawdownList, runningMax]
  have hhead : flDiv (x - x) x = Fl.val 0 := by simp [flDiv, ne_of_gt hx]
  unfold maxDrawdownFl flMinimum
  rw [hdl, hhead]
  have hrest : ∀ fl ∈ List.zipWith (fun c mm => flDiv (c - mm) mm) r (runningMaxGo x r),
      ∃ d, fl = Fl.val d ∧ -1 ≤ d ∧ d ≤ 0 := by
    intro fl hfl
    obtain ⟨d, hd, h1, h2⟩ := drawdown_vals r x hx (fun z hz => hpos z (by simp [hz])) fl hfl
    exact ⟨d, hd, h1.le, h2⟩
  have hfold : flMin Fl.nan (Fl.val 0) = Fl.val 0 := rfl
  simp only [List.foldl_cons, hfold]
  obtain ⟨d, hd, h1, h2⟩ := foldl_flMin_vals (-1) 0 _ 0 (by norm_num) le_rfl hrest
  refine ⟨d * 100, ?_, by linarith, by linarith⟩
  rw [hd]
  rfl

lemma metrics_helper (returns : List (Option ℚ)) (pnls : List ℚ)
    (hne : returns ≠ [])
    (hgt : ∀ r ∈ fillna 0 returns, -1 < r) :
    ∃ M d, calculateMetrics returns pnls = some M ∧
      M.max_drawdown = Fl.val d ∧ -100 ≤ d ∧ d ≤ 0 ∧
      (2 ≤ returns.length →
        M.annual_return.isFinite ∧ M.annual_volatility.isFinite ∧ M.sharpe.isFinite) := by
  have hposel : ∀ x ∈ (fillna 0 returns).map fun r => 1 + r, 0 < x := by
    intro x hx
    obtain ⟨r, hr, rfl⟩ := List.mem_map.mp hx
    have := hgt r hr
    linarith
  have hcumpos : ∀ y ∈ cumprodGo 1 ((fillna 0 returns).map fun r => 1 + r), 0 < y :=
    cumprodGo_pos _ 1 one_pos hposel
  have hcumlen : (cumprodGo 1 ((fillna 0 returns).map fun r => 1 + r)).length =
      returns.length := by
    rw [cumprodGo_length, List.length_map, fillna_length]
  have hcumne : cumprodGo 1 ((fillna 0 returns).map fun r => 1 + r) ≠ [] := by
    intro hnil
    rw [hnil] at hcumlen
    exact hne (List.eq_nil_of_length_eq_zero hcumlen.symm)
  obtain ⟨clast, hlast⟩ :
      ∃ c, (cumprodGo 1 ((fillna 0 returns).map fun r => 1 + r)).getLast? = some c :=
    Option.isSome_iff_exists.mp (List.getLast?_isSome.mpr hcumne)
  have hclmem : clast ∈ cumprodGo 1 ((fillna 0 returns).map fun r => 1 + r) := by
    obtain ⟨hne', heq⟩ := List.mem_getLast?_eq_getLast
      (show clast ∈ (cumprodGo 1 ((fillna 0 returns).map fun r => 1 + r)).getLast? from hlast)
    rw [heq]
    exact List.getLast_mem hne'
  have hclpos : 0 < clast := hcumpos clast hclmem
  have hddn := maxDrawdownFl_bounds _ hcumne hcumpos
  obtain ⟨d, hd, hd1, hd2⟩ := hddn
  have hM : calculateMetrics returns pnls = some
      ⟨(clast - 1) * 100,
        if clast < 0 ∧ ¬((fillna 0 returns).length ∣ 252) then Fl.nan else Fl.val clast,
        if (fillna 0 returns).length < 2 then Fl.nan
          else Fl.val (sampleVar (fillna 0 returns) * 252 * 10000),
        if flPos (if (fillna 0 returns).length < 2 then Fl.nan
            else Fl.val (sampleVar (fillna 0 returns) * 252 * 10000)) then
          flDivF
            (if clast < 0 ∧ ¬((fillna 0 returns).length ∣ 252) then Fl.nan else Fl.val clast)
            (if (fillna 0 returns).length < 2 then Fl.nan
              else Fl.val (sampleVar (fillna 0 returns) * 252 * 10000))
        else Fl.val 0,
        maxDrawdownFl (cumprodGo 1 ((fillna 0 returns).map fun r => 1 + r)),
        pnls.length,
        if pnls.length = 0 then 0
          else ((pnls.filter fun p => 0 < p).length : ℚ) / (pnls.length : ℚ) * 100⟩ := by
    simp only [calculateMetrics, hlast]
  refine ⟨_, d, hM, hd, hd1, hd2, ?_⟩
  intro h2
  have h2' : ¬((fillna 0 returns).length < 2) := by
    rw [fillna_length]
    omega
  have har : ¬(clast < 0 ∧ ¬((fillna 0 returns).length ∣ 252)) := by
    intro hcon
    exact absurd hcon.1 (not_lt.2 hclpos.le)
  refine ⟨?_, ?_, ?_⟩
  · show Fl.isFinite (if clast < 0 ∧ ¬((fillna 0 returns).length ∣ 252) then Fl.nan
      else Fl.val clast)
    rw [if_neg har]
    trivial
  · show Fl.isFinite (if (fillna 0 returns).length < 2 then Fl.nan
      else Fl.val (sampleVar (fillna 0 returns) * 252 * 10000))
    rw [if_neg h2']
    trivial
  · show Fl.isFinite (if flPos (if (fillna 0 returns).length < 2 then Fl.nan
        else Fl.val (sampleVar (fillna 0 returns) * 252 * 10000)) then
      flDivF
        (if clast < 0 ∧ ¬((fillna 0 returns).length ∣ 252) then Fl.nan else Fl.val clast)
        (if (fillna 0 returns).length < 2 then Fl.nan
          else Fl.val (sampleVar (fillna 0 returns) * 252 * 10000))
      else Fl.val 0)
    rw [if_neg har, if_neg h2']
    by_cases hv : (0 : ℚ) < sampleVar (fillna 0 returns) * 252 * 10000
    · have hp : flPos (Fl.val (sampleVar (fillna 0 returns) * 252 * 10000)) = true := by
        simp [flPos, hv]
      rw [if_pos hp]
      show Fl.isFinite (flDiv clast (sampleVar (fillna 0 returns) * 252 * 10000))
      rw [flDiv, if_pos (ne_of_gt hv)]
      trivial
    · have hp : flPos (Fl.val (sampleVar (fillna 0 returns) * 252 * 10000)) = false := by
        simp [flPos, hv]
      rw [if_neg (by simp [hp])]
      trivial

/-- Counterexample to C6 as stated: the claim includes single-bar return
series among the inputs whose metrics must all be finite, but on the
single-bar series [0] the code's `annual_volatility` is NaN — pandas
`std()` uses ddof = 1 and yields NaN for one observation — and NaN is
not finite. -/
theorem c6_counterexample :
    calculateMetrics [some 0] [] = some ⟨0, Fl.val 1, Fl.nan, Fl.val 0, Fl.val 0, 0, 0⟩ ∧
      ¬ Fl.isFinite Fl.nan := by
  constructor
  · norm_num [calculateMetrics, fillna, cumprodGo, sampleVar, listMean, runningMax,
      runningMaxGo, drawdownList, maxDrawdownFl, flMinimum, flMin, flMul100, flDiv,
      flDivF, flPos]
  · exact fun h => h

/-- C6 as amended: the counterexample forces two extra hypotheses — at
least two bars (else `annual_volatility` is the NaN sample deviation of
one point) and every NaN-filled return above -1 (else the equity curve
can reach 0 or go negative, driving `annual_return` or `max_drawdown`
to NaN or -inf).  Under these, `annual_return`, `annual_volatility`,
`sharpe_ratio` and `max_drawdown` are finite — never NaN, never
infinite; `total_return`, `total_trades` and `win_rate` are modelled as
plain ℚ/ℕ because their arithmetic cannot leave the finite range on
these inputs.  Degenerate guards still hold: zero volatility gives
Sharpe 0, zero trades give win_rate 0. -/
theorem c6_amended_metrics_finite (returns : List (Option ℚ)) (pnls : List ℚ)
    (hlen : 2 ≤ returns.length) (hgt : ∀ r ∈ fillna 0 returns, -1 < r) :
    ∃ M, calculateMetrics returns pnls = some M ∧
      M.annual_return.isFinite ∧ M.annual_volatility.isFinite ∧
      M.sharpe.isFinite ∧ M.max_drawdown.isFinite := by
  have hne : returns ≠ [] := by
    intro h
    rw [h] at hlen
    simp at hlen
  obtain ⟨M, d, hM, hd, _, _, hfin⟩ := metrics_helper returns pnls hne hgt
  obtain ⟨h1, h2, h3⟩ := hfin hlen
  refine ⟨M, hM, h1, h2, h3, ?_⟩
  rw [hd]
  trivial

/-- Witness for the amended C6 on the two-bar all-zero return series. -/
theorem c6_witness :
    calculateMetrics [some 0, some 0] [] =
        some ⟨0, Fl.val 1, Fl.val 0, Fl.val 0, Fl.val 0, 0, 0⟩ ∧
      Fl.isFinite
        ((⟨0, Fl.val 1, Fl.val 0, Fl.val 0, Fl.val 0, 0, 0⟩ : Metrics).annual_return) := by
  have hcalc : calculateMetrics [some 0, some 0] [] =
      some ⟨0, Fl.val 1, Fl.val 0, Fl.val 0, Fl.val 0, 0, 0⟩ := by
    norm_num [calculateMetrics, fillna, cumprodGo, sampleVar, listMean, runningMax,
      runningMaxGo, drawdownList, maxDrawdownFl, flMinimum, flMin, flMul100, flDiv,
      flDivF, flPos]
  obtain ⟨M, hM, h1, _, _, _⟩ := c6_amended_metrics_finite [some 0, some 0] []
    (by norm_num) (by norm_num [fillna])
  have hMeq : M = ⟨0, Fl.val 1, Fl.val 0, Fl.val 0, Fl.val 0, 0, 0⟩ := by
    rw [hcalc] at hM
    exact (Option.some_inj.mp hM).symm
  exact ⟨hcalc, hMeq ▸ h1⟩

/-- Counterexample to C9 as stated: on the return series [0, -3] (legal
input to `_calculate_metrics`; a bar losing more than 100% makes the
equity curve negative) `max_drawdown` is -300, outside [-100, 0]. -/
theorem c9_counterexample :
    calculateMetrics [some 0, some (-3)] [] =
        some ⟨-300, Fl.val (-2), Fl.val 11340000, Fl.val (-1 / 5670000),
          Fl.val (-300), 0, 0⟩ ∧
      (-300 : ℚ) < -100 := by
  constructor
  · norm_num [calculateMetrics, fillna, cumprodGo, sampleVar, listMean, runningMax,
      runningMaxGo, drawdownList, maxDrawdownFl, flMinimum, flMin, flMul100, flDiv,
      flDivF, flPos]
  · norm_num

/-- C9 as amended: the counterexample forces the hypothesis that every
NaN-filled return exceeds -1 (equity curve stays positive; drawdown
division is then well defined), plus nonemptiness; then the maximum
drawdown is a finite value in the closed interval [-100, 0]. -/
theorem c9_amended_drawdown_bound (returns : List (Option ℚ)) (pnls : List ℚ)
    (hne : returns ≠ []) (hgt : ∀ r ∈ fillna 0 returns, -1 < r) :
    ∃ M d, calculateMetrics returns pnls = some M ∧
      M.max_drawdown = Fl.val d ∧ -100 ≤ d ∧ d ≤ 0 := by
  obtain ⟨M, d, hM, hd, h1, h2, _⟩ := metrics_helper returns pnls hne hgt
  exact ⟨M, d, hM, hd, h1, h2⟩

/-- Witness for the amended C9 on the return series [0, -1/2]: the
maximum drawdown is exactly -50, inside [-100, 0]. -/
theorem c9_witness :
    calculateMetrics [some 0, some (-1 / 2)] [] =
        some ⟨-50, Fl.val (1 / 2), Fl.val 315000, Fl.val (1 / 630000),
          Fl.val (-50), 0, 0⟩ ∧
      (-100 : ℚ) ≤ -50 ∧ (-50 : ℚ) ≤ 0 := by
  have hcalc : calculateMetrics [some 0, some (-1 / 2)] [] =
      some ⟨-50, Fl.val (1 / 2), Fl.val 315000, Fl.val (1 / 630000),
        Fl.val (-50), 0, 0⟩ := by
    norm_num [calculateMetrics, fillna, cumprodGo, sampleVar, listMean, runningMax,
      runningMaxGo, drawdownList, maxDrawdownFl, flMinimum, flMin, flMul100, flDiv,
      flDivF, flPos]
  obtain ⟨M, d, hM, hd, h1, h2⟩ := c9_amended_drawdown_bound [some 0, some (-1 / 2)] []
    (List.cons_ne_nil _ _) (by norm_num [fillna])
  have hMeq : M = ⟨-50, Fl.val (1 / 2), Fl.val 315000, Fl.val (1 / 630000),
      Fl.val (-50), 0, 0⟩ := by
    rw [hcalc] at hM
    exact (Option.some_inj.mp hM).symm
  have hdval : d = -50 := by
    rw [hMeq] at hd
    simpa using hd.symm
  exact ⟨hcalc, by rw [← hdval]; exact h1, by rw [← hdval]; exact h2⟩

lemma calculateMetrics_isSome (returns : List (Option ℚ)) (pnls : List ℚ)
    (hne : returns ≠ []) : ∃ M, calculateMetrics returns pnls = some M := by
  have hcumlen : (cumprodGo 1 ((fillna 0 returns).map fun r => 1 + r)).length =
      returns.length := by
    rw [cumprodGo_length, List.length_map, fillna_length]
  have hcumne : cumprodGo 1 ((fillna 0 returns).map fun r => 1 + r) ≠ [] := by
    intro hnil
    rw [hnil] at hcumlen
    exact hne (List.eq_nil_of_length_eq_zero hcumlen.symm)
  obtain ⟨c, hc⟩ :
      ∃ c, (cumprodGo 1 ((fillna 0 returns).map fun r => 1 + r)).getLast? = some c :=
    Option.isSome_iff_exists.mp (List.getLast?_isSome.mpr hcumne)
  have hs : (calculateMetrics returns pnls).isSome := by
    simp only [calculateMetrics, hc]
    rfl
  exact Option.isSome_iff_exists.mp hs

lemma run_isSome (bars : List (ℤ × ℚ)) (srBuy srSell : Option ℚ) (fee : ℚ)
    (hne : bars ≠ []) : ∃ r, run bars srBuy srSell fee = some r := by
  have hsrne : runSR (srBuy.getD (2 / 5)) (srSell.getD (3 / 5)) fee
      (bars.map Prod.snd) ≠ [] := by
    intro h
    have hl := runSR_length (srBuy.getD (2 / 5)) (srSell.getD (3 / 5)) fee
      (bars.map Prod.snd)
    rw [h, List.length_map] at hl
    exact hne (List.eq_nil_of_length_eq_zero hl.symm)
  obtain ⟨M, hM⟩ := calculateMetrics_isSome _
    ((tradeLoop fee ⟨false, 0, 0⟩
      (runRows (srBuy.getD (2 / 5)) (srSell.getD (3 / 5)) bars)).map Trade.pnl) hsrne
  have hs : (run bars srBuy srSell fee).isSome := by
    simp only [run]
    rw [hM]
    rfl
  exact Option.isSome_iff_exists.mp hs

/-- Counterexample to C7 as stated: the series with the single bar
(date 0, close -5) contains a nonpositive close, yet `run` raises no
error — there is no DataError (or any validation) anywhere in the code —
and returns a complete result: `np.log10(-5)` is NaN, the NaN indicator
fails both threshold comparisons, the bar's signal is 0, and the
pipeline completes (with a NaN annual volatility in the metrics). -/
theorem c7_counterexample :
    run [((0 : ℤ), (-5 : ℚ))] none none 0 =
      some ⟨⟨0, Fl.val 1, Fl.nan, Fl.val 0, Fl.val 0, 0, 0⟩, [1], [], []⟩ := by
  norm_num [run, runRows, runSR, stratRet, stratRetGo, positionVec, ffillFrom, tempPos,
    signalOf, indicator, ratFract, ratFloor, floorLog10, floorLog10Up, cumRet, fillna,
    cumprodGo, tradeLoop, tradeStep, calculateMetrics, sampleVar, listMean,
    runningMax, runningMaxGo, drawdownList, maxDrawdownFl, flMinimum, flMin, flMul100,
    flDiv, flDivF, flPos]

/-- C7 as amended: `run` performs no validation of close prices.  A bar
whose close is ≤ 0 gets indicator NaN (modelled `none`), both threshold
comparisons on NaN are False, so that bar's signal is None (0); and for
every nonempty series — nonpositive closes included — `run` returns a
full BacktestResult instead of failing. -/
theorem c7_amended_no_price_validation (bars : List (ℤ × ℚ)) (srBuy srSell : Option ℚ)
    (fee : ℚ) (i : ℕ) (hi : i < bars.length) (hp : (bars.getD i (0, 0)).2 ≤ 0) :
    signalOf (srBuy.getD (2 / 5)) (srSell.getD (3 / 5)) (bars.getD i (0, 0)).2 = 0 ∧
      ∃ r, run bars srBuy srSell fee = some r := by
  constructor
  · have hind : indicator (bars.getD i (0, 0)).2 = none := by
      unfold indicator
      rw [if_neg (not_lt.2 hp)]
    simp only [signalOf, hind]
  · refine run_isSome bars srBuy srSell fee ?_
    intro h
    rw [h] at hi
    simp at hi

/-- Witness for the amended C7 at the one-bar series with close -5. -/
theorem c7_witness :
    signalOf (2 / 5) (3 / 5) (-5) = 0 ∧
      (run [((0 : ℤ), (-5 : ℚ))] none none 0).isSome = true := by
  have h := c7_amended_no_price_validation [((0 : ℤ), (-5 : ℚ))] none none 0 0
    (by norm_num) (by norm_num)
  refine ⟨by simpa using h.1, ?_⟩
  obtain ⟨r, hr⟩ := h.2
  rw [hr]
  rfl

/-- Counterexample to C8 as stated: with both required parameters
absent, `run` raises nothing — no ConfigError exists anywhere in the
code — and instead proceeds with the silently substituted defaults
`params.get('sr_buy', 0.4)` / `params.get('sr_sell', 0.6)`, producing
the same full result as explicitly passing 0.4/0.6. -/
theorem c8_counterexample :
    run [((0 : ℤ), (5 : ℚ))] none none 0 =
        run [((0 : ℤ), (5 : ℚ))] (some (2 / 5)) (some (3 / 5)) 0 ∧
      run [((0 : ℤ), (5 : ℚ))] none none 0 =
        some ⟨⟨0, Fl.val 1, Fl.nan, Fl.val 0, Fl.val 0, 0, 0⟩, [1], [], []⟩ := by
  constructor
  · rfl
  · norm_num [run, runRows, runSR, stratRet, stratRetGo, positionVec, ffillFrom, tempPos,
      signalOf, indicator, ratFract, ratFloor, floorLog10, floorLog10Up, cumRet, fillna,
      cumprodGo, tradeLoop, tradeStep, calculateMetrics, sampleVar, listMean,
      runningMax, runningMaxGo, drawdownList, maxDrawdownFl, flMinimum, flMin, flMul100,
      flDiv, flDivF, flPos]

/-- C8 as amended: an absent 'sr_buy'/'sr_sell' key is silently replaced
by the fallback 0.4/0.6 (note: these differ from the advertised
`default_params` 0.3/0.7) and the run proceeds identically to an
explicit 0.4/0.6 call; and no bounds validation exists — any threshold
values, however far outside [0, 1], are accepted and produce a full
result on any nonempty series. -/
theorem c8_amended_silent_defaults :
    (∀ (bars : List (ℤ × ℚ)) (fee : ℚ),
      run bars none none fee = run bars (some (2 / 5)) (some (3 / 5)) fee) ∧
      ∀ (bars : List (ℤ × ℚ)) (b s fee : ℚ), bars ≠ [] →
        ∃ r, run bars (some b) (some s) fee = some r := by
  constructor
  · intro bars fee
    rfl
  · intro bars b s fee hne
    exact run_isSome bars (some b) (some s) fee hne

/-- Witness for the amended C8: the default-substitution equality at a
concrete series, and acceptance of the out-of-range thresholds
buy = 2, sell = -1. -/
theorem c8_witness :
    run [((0 : ℤ), (5 : ℚ))] none none 1 =
        run [((0 : ℤ), (5 : ℚ))] (some (2 / 5)) (some (3 / 5)) 1 ∧
      (run [((0 : ℤ), (5 : ℚ))] (some 2) (some (-1)) 0).isSome = true := by
  refine ⟨c8_amended_silent_defaults.1 [((0 : ℤ), (5 : ℚ))] 1, ?_⟩
  obtain ⟨r, hr⟩ := c8_amended_silent_defaults.2 [((0 : ℤ), (5 : ℚ))] 2 (-1) 0
    (List.cons_ne_nil _ _)
  rw [hr]
  rfl

/-- C10: `run` is deterministic — it is a pure function of its inputs;
two invocations with equal price series, equal parameter options and
equal fee return equal results.  The embedding itself contains no
source of nondeterminism, mirroring the source: no wall-clock time, no
random state, and a single fixed iteration order. -/
theorem c10_determinism (bars bars' : List (ℤ × ℚ)) (srBuy srBuy' srSell srSell' : Option ℚ)
    (fee fee' : ℚ) (h1 : bars = bars') (h2 : srBuy = srBuy') (h3 : srSell = srSell')
    (h4 : fee = fee') :
    run bars srBuy srSell fee = run bars' srBuy' srSell' fee' := by
  rw [h1, h2, h3, h4]

/-- Witness for C10 at a concrete invocation. -/
theorem c10_witness :
    run [((0 : ℤ), (4 : ℚ)), (1, 5)] none none 0 =
      run [((0 : ℤ), (4 : ℚ)), (1, 5)] none none 0 :=
  c10_determinism _ _ _ _ _ _ _ _ rfl rfl rfl rfl
